import Mathlib

/-!
Verification of the override-persistence engine in `codex-rs/core/src/config_edit.rs`.

The engine edits a TOML configuration document held in a `toml_edit`-style
tree: it resolves an effective profile, applies `(segment path, value)`
overrides by walking/creating nested tables, serializes, and atomically
replaces the destination file.  We shallowly embed the document tree, the
override applier (`apply_toml_edit_override_segments`), the orchestrator
(`persist_overrides`) and the four public setters.  File I/O is modelled by
passing the read outcome and the prior file content explicitly; the external
TOML parser is a parameter `parse : String → Option EntryList`.
-/

namespace ConfigEdit

/-- Scalar TOML values as used by the engine (`toml_edit::Value`): the engine
itself only ever writes strings, but existing documents may hold other
scalar kinds, which matter for the "`profile` key holds a non-string" case. -/
inductive Value where
  | str (s : String)
  | int (n : Int)
  | bool (b : Bool)

mutual

/-- A `toml_edit::Item`: `None` placeholder, scalar value, or table.  A table
carries its `implicit` display flag and an ordered list of keyed children
(`toml_edit`'s `IndexMap`, insertion-ordered, keys unique). -/
inductive Item where
  | none
  | value (v : Value)
  | table (implicit : Bool) (entries : EntryList)

/-- The ordered children of a table (and of the document root). -/
inductive EntryList where
  | nil
  | cons (key : String) (item : Item) (rest : EntryList)

end

/-- Build an entry list from a plain list of pairs (notation helper for
concrete documents). -/
def entriesOf : List (String × Item) → EntryList
  | [] => EntryList.nil
  | (k, i) :: rest => EntryList.cons k i (entriesOf rest)

/-- Induction along the spine of an entry list (items are untouched). -/
theorem entryInduction {motive : EntryList → Prop} (nil : motive EntryList.nil)
    (cons : ∀ k i rest, motive rest → motive (EntryList.cons k i rest)) :
    ∀ l, motive l
  | EntryList.nil => nil
  | EntryList.cons k i rest => cons k i rest (entryInduction nil cons rest)

/-- Raw slot lookup in a table: first entry with the given key, including a
possible `Item.none` placeholder. -/
def lookupKey : EntryList → String → Option Item
  | EntryList.nil, _ => Option.none
  | EntryList.cons k' i rest, k => if k' = k then Option.some i else lookupKey rest k

/-- Whether a key is physically present in a table (placeholder included). -/
def keysMem (k : String) : EntryList → Bool
  | EntryList.nil => false
  | EntryList.cons k' _ rest => if k' = k then true else keysMem k rest

/-- The key sequence of a table, in order. -/
def keysOf : EntryList → List String
  | EntryList.nil => []
  | EntryList.cons k _ rest => k :: keysOf rest

/-- Insert-or-replace semantics of `toml_edit`'s `IndexMut` (`current[seg] = …`):
an existing slot is overwritten in place, a missing key is appended. -/
def setKey : EntryList → String → Item → EntryList
  | EntryList.nil, k, v => EntryList.cons k v EntryList.nil
  | EntryList.cons k' i rest, k, v =>
      if k' = k then EntryList.cons k v rest else EntryList.cons k' i (setKey rest k v)

/-- `toml_edit::Table::get`: a present `Item::None` placeholder is reported
as absent. -/
def getKey (d : EntryList) (k : String) : Option Item :=
  match lookupKey d k with
  | Option.some Item.none => Option.none
  | r => r

/-- `toml_edit::Table::contains_key`: present and not a `None` placeholder. -/
def containsKey (d : EntryList) (k : String) : Bool :=
  (getKey d k).isSome

/-- `Item::is_table`. -/
def Item.isTable : Item → Bool
  | Item.table _ _ => true
  | _ => false

/-- `Item::as_str`: `Some` exactly for a string scalar. -/
def Item.asStr : Item → Option String
  | Item.value (Value.str s) => Option.some s
  | _ => Option.none

/-- `toml_edit::value(val)` for a `&str` argument: a string scalar item. -/
def tomlEditValueStr (s : String) : Item :=
  Item.value (Value.str s)

/-- The override applier `apply_toml_edit_override_segments` (config_edit.rs
lines 99-137), translated with the loop over `segments[..len-1]` as recursion
on the segment list.  For each non-final segment: a missing child is inserted
as a fresh implicit table; a child that is not a table is replaced in place by
a fresh implicit table; then the walk descends (the write-back through
`setKey` mirrors mutation through the `as_table_mut` reference).  The final
segment is an unconditional insert-or-overwrite.  An empty segment list
returns the document unchanged. -/
def applyTomlEditOverrideSegments : EntryList → List String → Item → EntryList
  | d, [], _ => d
  | d, [last], v => setKey d last v
  | d, seg :: s2 :: rest, v =>
      let d1 := if containsKey d seg then d else setKey d seg (Item.table true EntryList.nil)
      match getKey d1 seg with
      | Option.none => d1
      | Option.some item =>
          match (if item.isTable then item else Item.table true EntryList.nil) with
          | Item.table imp sub =>
              setKey d1 seg (Item.table imp (applyTomlEditOverrideSegments sub (s2 :: rest) v))
          | other => setKey d1 seg other

/-- Instrumented copy of `applyTomlEditOverrideSegments` for the guard
reachability claim: the returned flag records whether either early-return
guard of the source (the `let Some(item) … else return` at line 120 or the
`let Some(tbl) … else return` at line 129) was taken anywhere in the walk. -/
def applySegsInstr : EntryList → List String → Item → EntryList × Bool
  | d, [], _ => (d, false)
  | d, [last], v => (setKey d last v, false)
  | d, seg :: s2 :: rest, v =>
      let d1 := if containsKey d seg then d else setKey d seg (Item.table true EntryList.nil)
      match getKey d1 seg with
      | Option.none => (d1, true)
      | Option.some item =>
          match (if item.isTable then item else Item.table true EntryList.nil) with
          | Item.table imp sub =>
              let r := applySegsInstr sub (s2 :: rest) v
              (setKey d1 seg (Item.table imp r.1), r.2)
          | other => (setKey d1 seg other, true)

/-- Observer: the item reached by following a segment path through tables
(using `toml_edit` `get` semantics at every step). -/
def getPath : List String → EntryList → Option Item
  | [], _ => Option.none
  | [last], d => getKey d last
  | seg :: s2 :: rest, d =>
      match getKey d seg with
      | Option.some (Item.table _ sub) => getPath (s2 :: rest) sub
      | _ => Option.none

/-- Per-override path computation of the `persist_overrides` loop
(config_edit.rs lines 70-85): with an effective profile whose name is `name`,
a path whose first segment is not `"profiles"` is prefixed by
`["profiles", name]`; otherwise the path is used as given. -/
def prefixSegments (eff : Option String) (segments : List String) : List String :=
  match eff with
  | Option.some name =>
      if segments.head? = Option.some "profiles" then segments
      else "profiles" :: name :: segments
  | Option.none => segments

/-- Profile resolution of `persist_overrides` (config_edit.rs lines 62-68):
the explicit argument verbatim if supplied, else the string value of the
top-level `profile` key, else `none`. -/
def effectiveProfile (doc : EntryList) (profile : Option String) : Option String :=
  match profile with
  | Option.some p => Option.some p
  | Option.none => (getKey doc "profile").bind Item.asStr

/-- The override loop of `persist_overrides` (lines 70-85): each override is
applied at its profile-adjusted path, in order. -/
def persistApplyLoop (eff : Option String) : List (List String × String) → EntryList → EntryList
  | [], d => d
  | (segments, val) :: rest, d =>
      persistApplyLoop eff rest
        (applyTomlEditOverrideSegments d (prefixSegments eff segments) (tomlEditValueStr val))

/-- The pure document transformation of `persist_overrides`: resolve the
effective profile once from the freshly loaded document, then run the
override loop. -/
def persistOverridesDoc (doc : EntryList) (profile : Option String)
    (ovs : List (List String × String)) : EntryList :=
  persistApplyLoop (effectiveProfile doc profile) ovs doc

/-- Outcome of `tokio::fs::read_to_string` on the destination file. -/
inductive ReadResult where
  | ok (s : String)
  | notFound
  | ioError

/-- Fatal error kinds of a persist call (the model treats the final write as
always succeeding; the claims under verification concern read/parse errors). -/
inductive PersistError where
  | readError
  | parseError

/-- The fallible front half of `persist_overrides` (config_edit.rs lines
56-85): match on the read outcome (`NotFound` starts from an empty document,
any other error is returned), parse, resolve the profile, apply the
overrides. -/
def persistOverrides (parse : String → Option EntryList) (r : ReadResult)
    (profile : Option String) (ovs : List (List String × String)) :
    Except PersistError EntryList :=
  match r with
  | ReadResult.ok s =>
      match parse s with
      | Option.some doc => Except.ok (persistOverridesDoc doc profile ovs)
      | Option.none => Except.error PersistError.parseError
  | ReadResult.notFound => Except.ok (persistOverridesDoc EntryList.nil profile ovs)
  | ReadResult.ioError => Except.error PersistError.readError

/-- Keys that render bare in TOML; others are quoted (this is how a profile
name containing a dot or a space is addressed as one exact key). -/
def bareKeyOk (k : String) : Bool :=
  (!(k == "")) && k.toList.all (fun c => c.isAlphanum || c == '-' || c == '_')

/-- Render one key. -/
def serKey (k : String) : String :=
  if bareKeyOk k then k else "\"" ++ k ++ "\""

/-- Render one scalar value. -/
def serValue : Value → String
  | Value.str s => "\"" ++ s ++ "\""
  | Value.int n => toString n
  | Value.bool b => if b then "true" else "false"

/-- Render the `key = value` lines of one table, in entry order. -/
def serValues : EntryList → String
  | EntryList.nil => ""
  | EntryList.cons k (Item.value v) rest => serKey k ++ " = " ++ serValue v ++ "\n" ++ serValues rest
  | EntryList.cons _ _ rest => serValues rest

/-- Whether a table has a direct scalar child (an implicit table without one
renders no standalone header). -/
def hasValueChild : EntryList → Bool
  | EntryList.nil => false
  | EntryList.cons _ (Item.value _) _ => true
  | EntryList.cons _ _ rest => hasValueChild rest

/-- Render a `[a.b]` header line for a table path. -/
def renderHeader (path : List String) : String :=
  "[" ++ String.intercalate "." (path.map serKey) ++ "]\n"

/-- Depth-first header blocks of all table descendants, in entry order: a
table renders `[path]` followed by its scalar lines unless it is implicit
with no direct scalar child, and its own table children follow. -/
def serBlocks : List String → EntryList → List String
  | _, EntryList.nil => []
  | path, EntryList.cons k (Item.table imp sub) rest =>
      (if imp && !(hasValueChild sub)
       then serBlocks (path ++ [k]) sub
       else (renderHeader (path ++ [k]) ++ serValues sub) :: serBlocks (path ++ [k]) sub)
      ++ serBlocks path rest
  | path, EntryList.cons _ _ rest => serBlocks path rest

/-- The document model's formatting serializer on documents built by this
engine: root scalar lines first, then the table blocks, each block preceded
by a blank line unless it opens the file. -/
def serializeDoc (d : EntryList) : String :=
  let vals := serValues d
  match serBlocks [] d with
  | [] => vals
  | b :: bs =>
      (if vals = "" then b else vals ++ "\n" ++ b)
      ++ String.join (bs.map (fun x => "\n" ++ x))

/-- File-level behavior of one `persist_overrides` call, given the prior
bytes of the destination file and the outcome of the read: on success the
file holds the serialized mutated document; every error path returns before
the write, leaving the prior bytes in place. -/
def runPersistWithRead (parse : String → Option EntryList) (prior : Option String)
    (r : ReadResult) (profile : Option String) (ovs : List (List String × String)) :
    Option String × Option PersistError :=
  match persistOverrides parse r profile ovs with
  | Except.ok doc => (Option.some (serializeDoc doc), Option.none)
  | Except.error e => (prior, Option.some e)

/-- Reading a file-system state in which no spurious I/O fault occurs:
a present file reads its content, an absent file reads `NotFound`. -/
def readFs : Option String → ReadResult
  | Option.some s => ReadResult.ok s
  | Option.none => ReadResult.notFound

/-- One `persist_overrides` call against a destination file state
(`none` = file absent). -/
def runPersist (parse : String → Option EntryList) (fs : Option String)
    (profile : Option String) (ovs : List (List String × String)) :
    Option String × Option PersistError :=
  runPersistWithRead parse fs (readFs fs) profile ovs

/-- Modelled from the spec: the `ReasoningEffort` enumeration lives in the
`codex-protocol` crate, which is not among the provided sources; the spec
fixes it as a small closed enumeration of effort levels. -/
inductive ReasoningEffort where
  | minimal
  | low
  | medium
  | high

/-- Modelled from the spec: `ReasoningEffort`'s `Display` implementation is in
the `codex-protocol` crate, outside the provided sources; the spec states the
effort value is serialized using its canonical lowercase string form
("minimal", "low", "medium", "high"). -/
def ReasoningEffort.toCanonicalString : ReasoningEffort → String
  | ReasoningEffort.minimal => "minimal"
  | ReasoningEffort.low => "low"
  | ReasoningEffort.medium => "medium"
  | ReasoningEffort.high => "high"

/-- `set_default_model_for_profile` (config_edit.rs lines 12-19): one
`(["model"], model)` override handed to `persist_overrides`. -/
def setDefaultModelForProfile (parse : String → Option EntryList) (fs : Option String)
    (profileOverride : Option String) (model : String) :
    Option String × Option PersistError :=
  runPersist parse fs profileOverride [(["model"], model)]

/-- `set_default_model` (lines 23-25). -/
def setDefaultModel (parse : String → Option EntryList) (fs : Option String)
    (model : String) : Option String × Option PersistError :=
  setDefaultModelForProfile parse fs Option.none model

/-- `set_default_effort_for_profile` (lines 31-39): one
`(["model_reasoning_effort"], effort.to_string())` override handed to
`persist_overrides`. -/
def setDefaultEffortForProfile (parse : String → Option EntryList) (fs : Option String)
    (profileOverride : Option String) (effort : ReasoningEffort) :
    Option String × Option PersistError :=
  runPersist parse fs profileOverride
    [(["model_reasoning_effort"], ReasoningEffort.toCanonicalString effort)]

/-- `set_default_effort` (lines 43-45). -/
def setDefaultEffort (parse : String → Option EntryList) (fs : Option String)
    (effort : ReasoningEffort) : Option String × Option PersistError :=
  setDefaultEffortForProfile parse fs Option.none effort

/-- Parse function used to witness the end-to-end scenario: it parses exactly
the text the first setter call writes, to the document `toml_edit` would
build from it. -/
def parseModelGpt5 : String → Option EntryList :=
  fun s =>
    if s = "model = \"gpt-5\"\n"
    then Option.some (entriesOf [("model", Item.value (Value.str "gpt-5"))])
    else Option.none

/-- The overrides of one persist call after profile adjustment, as the
`(path, item)` pairs the loop hands to the applier. -/
def ovsPrefixed (eff : Option String) (ovs : List (List String × String)) :
    List (List String × Item) :=
  ovs.map (fun pr => (prefixSegments eff pr.1, tomlEditValueStr pr.2))

/-- Generic override runner over already-adjusted `(path, item)` pairs (the
shape of the persist loop after profile adjustment). -/
def run : List (List String × Item) → EntryList → EntryList
  | [], d => d
  | (p, v) :: os, d => run os (applyTomlEditOverrideSegments d p v)

/-- Per-key view of one override as seen from one root slot: a leaf write at
this key, or a deeper write through it. -/
inductive KOp where
  | leaf (v : Item)
  | deep (p : List String) (v : Item)

/-- The sub-list of operations a run performs on the root slot `k`, in order. -/
def opsAt (k : String) : List (List String × Item) → List KOp
  | [] => []
  | (p, v) :: rest =>
      match p with
      | [] => opsAt k rest
      | [k'] => if k' = k then KOp.leaf v :: opsAt k rest else opsAt k rest
      | k' :: p2 :: prest =>
          if k' = k then KOp.deep (p2 :: prest) v :: opsAt k rest else opsAt k rest

/-- The per-key operation corresponding to a path `k :: t`. -/
def mkKOp (t : List String) (v : Item) : KOp :=
  match t with
  | [] => KOp.leaf v
  | x :: xs => KOp.deep (x :: xs) v

/-- Implicit flag and contents a slot contributes when a deeper write
traverses it: an existing table is kept, anything else becomes a fresh
implicit empty table. -/
def promoteSlot : Option Item → Bool × EntryList
  | Option.some (Item.table imp sub) => (imp, sub)
  | _ => (true, EntryList.nil)

/-- Effect of one per-key operation on a slot. -/
def stepEval (i : Option Item) : KOp → Item
  | KOp.leaf v => v
  | KOp.deep p v =>
      Item.table (promoteSlot i).1 (applyTomlEditOverrideSegments (promoteSlot i).2 p v)

/-- Effect of a list of per-key operations on a slot (absent slots are
created by the first operation). -/
def evalKey : Option Item → List KOp → Option Item
  | i, [] => i
  | i, op :: ops => evalKey (Option.some (stepEval i op)) ops

/-- Total path length of an override list (termination measure). -/
def pathSum : List (List String × Item) → Nat
  | [] => 0
  | (p, _) :: rest => p.length + pathSum rest

/-- The overrides on the slot's sub-table induced by the deep operations. -/
def deepOvs : List KOp → List (List String × Item)
  | [] => []
  | KOp.leaf _ :: rest => deepOvs rest
  | KOp.deep p v :: rest => (p, v) :: deepOvs rest

/-- Whether a per-key operation list contains no leaf write. -/
def allDeep : List KOp → Bool
  | [] => true
  | KOp.deep _ _ :: rest => allDeep rest
  | _ => false

mutual

/-- Well-formedness of an item: every table in it has duplicate-free keys
(true of every `toml_edit` document, whose tables are `IndexMap`s). -/
def wfItem : Item → Bool
  | Item.table _ sub => wfEntries sub
  | _ => true

/-- Well-formedness of a table body: keys pairwise distinct, items
well-formed. -/
def wfEntries : EntryList → Bool
  | EntryList.nil => true
  | EntryList.cons k i rest => !(keysMem k rest) && wfItem i && wfEntries rest

end

/-- Well-formedness of an adjusted override list (the engine only ever writes
scalar strings, which are trivially well-formed). -/
def wfOps : List (List String × Item) → Bool
  | [] => true
  | (_, v) :: rest => wfItem v && wfOps rest

/-- Parse function for the idempotence counterexample: it parses the empty
file and the file the first call writes, exactly as `toml_edit` does. -/
def parseIdemCex : String → Option EntryList :=
  fun s =>
    if s = "" then Option.some EntryList.nil
    else if s = "profile = \"x\"\n"
    then Option.some (entriesOf [("profile", Item.value (Value.str "x"))])
    else Option.none

/-- Parse function for the idempotence witness: it parses the empty file and
the file the first call writes, exactly as `toml_edit` does. -/
def parseIdemWit : String → Option EntryList :=
  fun s =>
    if s = "" then Option.some EntryList.nil
    else if s = "[profiles.p]\nmodel = \"gpt-5\"\n"
    then Option.some (entriesOf [("profiles", Item.table true
      (entriesOf [("p", Item.table true
        (entriesOf [("model", Item.value (Value.str "gpt-5"))]))]))])
    else Option.none

section BasicLemmas

theorem lookup_setKey_self (d : EntryList) (k : String) (v : Item) :
    lookupKey (setKey d k v) k = Option.some v := by
  induction d using entryInduction with
  | nil => simp [setKey, lookupKey]
  | cons k' i tl ih =>
      by_cases h : k' = k
      · simp [setKey, h, lookupKey]
      · simp [setKey, h, lookupKey, ih]

theorem lookup_setKey_ne (d : EntryList) (k k2 : String) (v : Item) (h : k2 ≠ k) :
    lookupKey (setKey d k v) k2 = lookupKey d k2 := by
  induction d using entryInduction with
  | nil => simp [setKey, lookupKey, Ne.symm h]
  | cons k' i tl ih =>
      by_cases hk : k' = k
      · subst hk
        simp [setKey, lookupKey, Ne.symm h]
      · by_cases hk2 : k' = k2
        · simp [setKey, hk, lookupKey, hk2, h]
        · simp [setKey, hk, lookupKey, hk2, ih]

theorem setKey_setKey (d : EntryList) (k : String) (a b : Item) :
    setKey (setKey d k a) k b = setKey d k b := by
  induction d using entryInduction with
  | nil => simp [setKey]
  | cons k' i tl ih =>
      by_cases h : k' = k
      · simp [setKey, h]
      · simp [setKey, h, ih]

theorem getKey_setKey_self (d : EntryList) (k : String) (it : Item) (h : it ≠ Item.none) :
    getKey (setKey d k it) k = Option.some it := by
  unfold getKey
  rw [lookup_setKey_self]
  cases it with
  | none => exact absurd rfl h
  | value v => rfl
  | table imp sub => rfl

theorem getKey_setKey_ne (d : EntryList) (k k2 : String) (v : Item) (h : k2 ≠ k) :
    getKey (setKey d k v) k2 = getKey d k2 := by
  unfold getKey
  rw [lookup_setKey_ne d k k2 v h]

/-- Step equation of the applier on a non-final segment, phrased through
`toml_edit` `get` semantics: an existing table child is descended into with
its implicit flag and contents kept; a missing child or a non-table child
becomes a fresh implicit table whose contents come from the rest of the walk
(the previous value is discarded). -/
theorem applySegs_cons_cons (d : EntryList) (seg s2 : String) (rest : List String) (v : Item) :
    applyTomlEditOverrideSegments d (seg :: s2 :: rest) v =
      (match getKey d seg with
       | Option.some (Item.table imp sub) =>
           setKey d seg (Item.table imp (applyTomlEditOverrideSegments sub (s2 :: rest) v))
       | _ => setKey d seg
           (Item.table true (applyTomlEditOverrideSegments EntryList.nil (s2 :: rest) v))) := by
  cases hl : lookupKey d seg with
  | none =>
      have hg : getKey d seg = Option.none := by unfold getKey; rw [hl]
      simp only [applyTomlEditOverrideSegments, containsKey, hg, Option.isSome_none,
        Bool.false_eq_true, if_false,
        getKey_setKey_self d seg (Item.table true EntryList.nil) (by intro hc; cases hc),
        Item.isTable, if_true, setKey_setKey]
  | some it =>
      cases it with
      | none =>
          have hg : getKey d seg = Option.none := by unfold getKey; rw [hl]
          simp only [applyTomlEditOverrideSegments, containsKey, hg, Option.isSome_none,
            Bool.false_eq_true, if_false,
            getKey_setKey_self d seg (Item.table true EntryList.nil) (by intro hc; cases hc),
            Item.isTable, if_true, setKey_setKey]
      | value w =>
          have hg : getKey d seg = Option.some (Item.value w) := by unfold getKey; rw [hl]
          simp only [applyTomlEditOverrideSegments, containsKey, hg, Option.isSome_some,
            if_true, Item.isTable, Bool.false_eq_true, if_false]
      | table imp sub =>
          have hg : getKey d seg = Option.some (Item.table imp sub) := by unfold getKey; rw [hl]
          simp only [applyTomlEditOverrideSegments, containsKey, hg, Option.isSome_some,
            if_true, Item.isTable]

theorem getPath_cons (seg : String) (rest : List String) (d : EntryList) (h : rest ≠ []) :
    getPath (seg :: rest) d =
      (match getKey d seg with
       | Option.some (Item.table _ sub) => getPath rest sub
       | _ => Option.none) := by
  cases rest with
  | nil => exact absurd rfl h
  | cons s2 r2 => rfl

theorem getPath_nil_entries (p : List String) (h : p ≠ []) :
    getPath p EntryList.nil = Option.none := by
  cases p with
  | nil => exact absurd rfl h
  | cons s r =>
      cases r with
      | nil => rfl
      | cons s2 r2 => rfl

/-- After a non-empty walk, the leaf value sits at the full traversed path. -/
theorem getPath_applySegs_self (segs : List String) (d : EntryList) (v : Item)
    (h1 : segs ≠ []) (h2 : v ≠ Item.none) :
    getPath segs (applyTomlEditOverrideSegments d segs v) = Option.some v := by
  induction segs generalizing d with
  | nil => exact absurd rfl h1
  | cons seg rest ih =>
      cases rest with
      | nil =>
          show getKey (setKey d seg v) seg = Option.some v
          exact getKey_setKey_self d seg v h2
      | cons s2 r2 =>
          rw [applySegs_cons_cons]
          cases hg : getKey d seg with
          | none =>
              simp only []
              rw [getPath_cons seg (s2 :: r2) _ (by simp)]
              rw [getKey_setKey_self d seg _ (by intro hc; cases hc)]
              exact ih _ (by simp)
          | some it =>
              cases it with
              | none =>
                  simp only []
                  rw [getPath_cons seg (s2 :: r2) _ (by simp)]
                  rw [getKey_setKey_self d seg _ (by intro hc; cases hc)]
                  exact ih _ (by simp)
              | value w =>
                  simp only []
                  rw [getPath_cons seg (s2 :: r2) _ (by simp)]
                  rw [getKey_setKey_self d seg _ (by intro hc; cases hc)]
                  exact ih _ (by simp)
              | table imp sub =>
                  simp only []
                  rw [getPath_cons seg (s2 :: r2) _ (by simp)]
                  rw [getKey_setKey_self d seg _ (by intro hc; cases hc)]
                  exact ih _ (by simp)

/-- The applier never touches a root slot other than its first segment. -/
theorem getKey_applySegs_ne (d : EntryList) (seg : String) (t : List String) (v : Item)
    (k : String) (h : k ≠ seg) :
    getKey (applyTomlEditOverrideSegments d (seg :: t) v) k = getKey d k := by
  cases t with
  | nil =>
      show getKey (setKey d seg v) k = getKey d k
      exact getKey_setKey_ne d seg k v h
  | cons s2 r2 =>
      rw [applySegs_cons_cons]
      cases hg : getKey d seg with
      | none => simp only []; exact getKey_setKey_ne d seg k _ h
      | some it =>
          cases it with
          | none => simp only []; exact getKey_setKey_ne d seg k _ h
          | value w => simp only []; exact getKey_setKey_ne d seg k _ h
          | table imp sub => simp only []; exact getKey_setKey_ne d seg k _ h

/-- Full frame property: writing at `pre ++ k' :: prest` leaves the node at
any path `pre ++ k :: qrest` that diverges from the write path (`k ≠ k'`, at
any depth `pre`, with arbitrary tails) untouched.  Every node not on the
traversed segment path has a path of this shape: it diverges from the write
path at the first position where the two differ. -/
theorem getPath_applySegs_frame (pre : List String) (k k' : String)
    (qrest prest : List String) :
    ∀ (d : EntryList) (v : Item), k ≠ k' →
    getPath (pre ++ k :: qrest) (applyTomlEditOverrideSegments d (pre ++ k' :: prest) v)
      = getPath (pre ++ k :: qrest) d := by
  induction pre with
  | nil =>
      intro d v h
      simp only [List.nil_append]
      cases qrest with
      | nil =>
          show getKey (applyTomlEditOverrideSegments d (k' :: prest) v) k = getKey d k
          exact getKey_applySegs_ne d k' prest v k h
      | cons q1 q2 =>
          rw [getPath_cons k (q1 :: q2) _ (by simp), getPath_cons k (q1 :: q2) d (by simp)]
          rw [getKey_applySegs_ne d k' prest v k h]
  | cons seg pre' ih =>
      intro d v h
      have hne : pre' ++ k :: qrest ≠ ([] : List String) := by simp
      rw [show (seg :: pre') ++ k' :: prest = seg :: (pre' ++ k' :: prest) from rfl]
      rw [show (seg :: pre') ++ k :: qrest = seg :: (pre' ++ k :: qrest) from rfl]
      cases hp : pre' ++ k' :: prest with
      | nil => simp at hp
      | cons q qs =>
          rw [← hp]
          rw [getPath_cons seg (pre' ++ k :: qrest) d hne]
          cases hg : getKey d seg with
          | none =>
              rw [hp, applySegs_cons_cons, hg]
              simp only []
              rw [getPath_cons seg (pre' ++ k :: qrest) _ hne]
              rw [getKey_setKey_self d seg _ (by intro hc; cases hc)]
              simp only []
              rw [← hp, ih EntryList.nil v h]
              exact getPath_nil_entries _ hne
          | some it =>
              cases it with
              | none =>
                  rw [hp, applySegs_cons_cons, hg]
                  simp only []
                  rw [getPath_cons seg (pre' ++ k :: qrest) _ hne]
                  rw [getKey_setKey_self d seg _ (by intro hc; cases hc)]
                  simp only []
                  rw [← hp, ih EntryList.nil v h]
                  exact getPath_nil_entries _ hne
              | value w =>
                  rw [hp, applySegs_cons_cons, hg]
                  simp only []
                  rw [getPath_cons seg (pre' ++ k :: qrest) _ hne]
                  rw [getKey_setKey_self d seg _ (by intro hc; cases hc)]
                  simp only []
                  rw [← hp, ih EntryList.nil v h]
                  exact getPath_nil_entries _ hne
              | table imp sub =>
                  rw [hp, applySegs_cons_cons, hg]
                  simp only []
                  rw [getPath_cons seg (pre' ++ k :: qrest) _ hne]
                  rw [getKey_setKey_self d seg _ (by intro hc; cases hc)]
                  simp only []
                  rw [← hp, ih sub v h]

end BasicLemmas

section InstrLemmas

theorem applySegsInstr_cons_cons (d : EntryList) (seg s2 : String) (rest : List String) (v : Item) :
    applySegsInstr d (seg :: s2 :: rest) v =
      (match getKey d seg with
       | Option.some (Item.table imp sub) =>
           (setKey d seg (Item.table imp (applySegsInstr sub (s2 :: rest) v).1),
             (applySegsInstr sub (s2 :: rest) v).2)
       | _ =>
           (setKey d seg (Item.table true (applySegsInstr EntryList.nil (s2 :: rest) v).1),
             (applySegsInstr EntryList.nil (s2 :: rest) v).2)) := by
  cases hl : lookupKey d seg with
  | none =>
      have hg : getKey d seg = Option.none := by unfold getKey; rw [hl]
      simp only [applySegsInstr, containsKey, hg, Option.isSome_none,
        Bool.false_eq_true, if_false,
        getKey_setKey_self d seg (Item.table true EntryList.nil) (by intro hc; cases hc),
        Item.isTable, if_true, setKey_setKey]
  | some it =>
      cases it with
      | none =>
          have hg : getKey d seg = Option.none := by unfold getKey; rw [hl]
          simp only [applySegsInstr, containsKey, hg, Option.isSome_none,
            Bool.false_eq_true, if_false,
            getKey_setKey_self d seg (Item.table true EntryList.nil) (by intro hc; cases hc),
            Item.isTable, if_true, setKey_setKey]
      | value w =>
          have hg : getKey d seg = Option.some (Item.value w) := by unfold getKey; rw [hl]
          simp only [applySegsInstr, containsKey, hg, Option.isSome_some,
            if_true, Item.isTable, Bool.false_eq_true, if_false]
      | table imp sub =>
          have hg : getKey d seg = Option.some (Item.table imp sub) := by unfold getKey; rw [hl]
          simp only [applySegsInstr, containsKey, hg, Option.isSome_some,
            if_true, Item.isTable]

theorem applySegsInstr_spec (segs : List String) (d : EntryList) (v : Item) :
    (applySegsInstr d segs v).2 = false
    ∧ (applySegsInstr d segs v).1 = applyTomlEditOverrideSegments d segs v := by
  induction segs generalizing d with
  | nil => exact ⟨rfl, rfl⟩
  | cons seg rest ih =>
      cases rest with
      | nil => exact ⟨rfl, rfl⟩
      | cons s2 r2 =>
          rw [applySegsInstr_cons_cons, applySegs_cons_cons]
          cases hg : getKey d seg with
          | none =>
              refine ⟨(ih EntryList.nil).1, ?_⟩
              show setKey d seg (Item.table true (applySegsInstr EntryList.nil (s2 :: r2) v).1)
                  = setKey d seg
                      (Item.table true (applyTomlEditOverrideSegments EntryList.nil (s2 :: r2) v))
              rw [(ih EntryList.nil).2]
          | some it =>
              cases it with
              | none =>
                  refine ⟨(ih EntryList.nil).1, ?_⟩
                  show setKey d seg (Item.table true (applySegsInstr EntryList.nil (s2 :: r2) v).1)
                      = setKey d seg
                          (Item.table true (applyTomlEditOverrideSegments EntryList.nil (s2 :: r2) v))
                  rw [(ih EntryList.nil).2]
              | value w =>
                  refine ⟨(ih EntryList.nil).1, ?_⟩
                  show setKey d seg (Item.table true (applySegsInstr EntryList.nil (s2 :: r2) v).1)
                      = setKey d seg
                          (Item.table true (applyTomlEditOverrideSegments EntryList.nil (s2 :: r2) v))
                  rw [(ih EntryList.nil).2]
              | table imp sub =>
                  refine ⟨(ih sub).1, ?_⟩
                  show setKey d seg (Item.table imp (applySegsInstr sub (s2 :: r2) v).1)
                      = setKey d seg
                          (Item.table imp (applyTomlEditOverrideSegments sub (s2 :: r2) v))
                  rw [(ih sub).2]

end InstrLemmas

section IdempotenceLemmas

theorem keysMem_eq_isSome_lookup (d : EntryList) (k : String) :
    keysMem k d = (lookupKey d k).isSome := by
  induction d using entryInduction with
  | nil => rfl
  | cons k' i tl ih =>
      by_cases h : k' = k
      · simp [keysMem, lookupKey, h]
      · simp [keysMem, lookupKey, h, ih]

theorem keysOf_setKey (d : EntryList) (k : String) (v : Item) :
    keysOf (setKey d k v) = if keysMem k d then keysOf d else keysOf d ++ [k] := by
  induction d using entryInduction with
  | nil => simp [setKey, keysOf, keysMem]
  | cons k' i tl ih =>
      by_cases h : k' = k
      · simp [setKey, keysOf, keysMem, h]
      · simp only [setKey, h, if_false, keysOf, keysMem, ih]
        by_cases h2 : keysMem k tl
        · simp [h2]
        · simp [h2]

theorem keysMem_setKey_self (d : EntryList) (k : String) (v : Item) :
    keysMem k (setKey d k v) = true := by
  rw [keysMem_eq_isSome_lookup, lookup_setKey_self]
  rfl

theorem keysMem_setKey_ne (d : EntryList) (k k2 : String) (v : Item) (h : k2 ≠ k) :
    keysMem k2 (setKey d k v) = keysMem k2 d := by
  rw [keysMem_eq_isSome_lookup, keysMem_eq_isSome_lookup, lookup_setKey_ne d k k2 v h]

theorem keysMem_setKey_mono (d : EntryList) (k k2 : String) (v : Item)
    (h : keysMem k2 d = true) : keysMem k2 (setKey d k v) = true := by
  by_cases hk : k2 = k
  · subst hk
    exact keysMem_setKey_self d k2 v
  · rw [keysMem_setKey_ne d k k2 v hk]
    exact h

theorem lookup_eq_none_of_not_keysMem (d : EntryList) (k : String)
    (h : keysMem k d = false) : lookupKey d k = Option.none := by
  rw [keysMem_eq_isSome_lookup] at h
  cases hl : lookupKey d k with
  | none => rfl
  | some it => rw [hl] at h; simp at h

theorem keysMem_iff_mem_keysOf (d : EntryList) (k : String) :
    keysMem k d = true ↔ k ∈ keysOf d := by
  induction d using entryInduction with
  | nil => simp [keysMem, keysOf]
  | cons k' i tl ih =>
      by_cases h : k' = k
      · simp [keysMem, keysOf, h]
      · simp [keysMem, keysOf, h, ih, Ne.symm h]

theorem applySegs_lookup_ne (d : EntryList) (seg : String) (t : List String) (v : Item)
    (k : String) (h : k ≠ seg) :
    lookupKey (applyTomlEditOverrideSegments d (seg :: t) v) k = lookupKey d k := by
  cases t with
  | nil => exact lookup_setKey_ne d seg k v h
  | cons s2 r2 =>
      rw [applySegs_cons_cons]
      cases hg : getKey d seg with
      | none => exact lookup_setKey_ne d seg k _ h
      | some it =>
          cases it with
          | none => exact lookup_setKey_ne d seg k _ h
          | value w => exact lookup_setKey_ne d seg k _ h
          | table imp sub => exact lookup_setKey_ne d seg k _ h

theorem opsAt_cons_self (k : String) (t : List String) (v : Item)
    (os : List (List String × Item)) :
    opsAt k ((k :: t, v) :: os) = mkKOp t v :: opsAt k os := by
  cases t with
  | nil => simp [opsAt, mkKOp]
  | cons x xs => simp [opsAt, mkKOp]

theorem opsAt_cons_ne (k seg : String) (t : List String) (v : Item)
    (os : List (List String × Item)) (h : seg ≠ k) :
    opsAt k ((seg :: t, v) :: os) = opsAt k os := by
  cases t with
  | nil => simp [opsAt, h]
  | cons x xs => simp [opsAt, h]

theorem applySegs_lookup_self (d : EntryList) (seg : String) (t : List String) (v : Item) :
    lookupKey (applyTomlEditOverrideSegments d (seg :: t) v) seg
      = Option.some (stepEval (lookupKey d seg) (mkKOp t v)) := by
  cases t with
  | nil =>
      show lookupKey (setKey d seg v) seg = Option.some (stepEval (lookupKey d seg) (mkKOp [] v))
      rw [lookup_setKey_self]
      rfl
  | cons x xs =>
      rw [applySegs_cons_cons]
      cases hl : lookupKey d seg with
      | none =>
          have hg : getKey d seg = Option.none := by unfold getKey; rw [hl]
          rw [hg]
          simp only []
          rw [lookup_setKey_self]
          rfl
      | some it =>
          cases it with
          | none =>
              have hg : getKey d seg = Option.none := by unfold getKey; rw [hl]
              rw [hg]
              simp only []
              rw [lookup_setKey_self]
              rfl
          | value w =>
              have hg : getKey d seg = Option.some (Item.value w) := by
                unfold getKey; rw [hl]
              rw [hg]
              simp only []
              rw [lookup_setKey_self]
              rfl
          | table imp sub =>
              have hg : getKey d seg = Option.some (Item.table imp sub) := by
                unfold getKey; rw [hl]
              rw [hg]
              simp only []
              rw [lookup_setKey_self]
              rfl

theorem keysOf_applySegs (d : EntryList) (seg : String) (t : List String) (v : Item) :
    keysOf (applyTomlEditOverrideSegments d (seg :: t) v)
      = if keysMem seg d then keysOf d else keysOf d ++ [seg] := by
  cases t with
  | nil => exact keysOf_setKey d seg v
  | cons x xs =>
      rw [applySegs_cons_cons]
      cases hg : getKey d seg with
      | none => exact keysOf_setKey d seg _
      | some it =>
          cases it with
          | none => exact keysOf_setKey d seg _
          | value w => exact keysOf_setKey d seg _
          | table imp sub => exact keysOf_setKey d seg _

theorem keysMem_applySegs_self (d : EntryList) (seg : String) (t : List String) (v : Item) :
    keysMem seg (applyTomlEditOverrideSegments d (seg :: t) v) = true := by
  rw [keysMem_eq_isSome_lookup, applySegs_lookup_self]
  rfl

theorem keysMem_applySegs_mono (d : EntryList) (p : List String) (v : Item) (k : String)
    (h : keysMem k d = true) :
    keysMem k (applyTomlEditOverrideSegments d p v) = true := by
  cases p with
  | nil => exact h
  | cons seg t =>
      by_cases hk : k = seg
      · subst hk
        exact keysMem_applySegs_self d k t v
      · rw [keysMem_eq_isSome_lookup, applySegs_lookup_ne d seg t v k hk,
          ← keysMem_eq_isSome_lookup]
        exact h

/-- Per-slot characterization of a run: the final content of the root slot
`k` is the fold of the per-key operations over its initial content. -/
theorem run_lookup (os : List (List String × Item)) :
    ∀ (d : EntryList) (k : String),
      lookupKey (run os d) k = evalKey (lookupKey d k) (opsAt k os) := by
  induction os with
  | nil => intro d k; rfl
  | cons ov os' ih =>
      intro d k
      obtain ⟨p, v⟩ := ov
      cases p with
      | nil =>
          show lookupKey (run os' (applyTomlEditOverrideSegments d [] v)) k
              = evalKey (lookupKey d k) (opsAt k (([], v) :: os'))
          exact ih d k
      | cons seg t =>
          by_cases hk : seg = k
          · subst hk
            show lookupKey (run os' (applyTomlEditOverrideSegments d (seg :: t) v)) seg
                = evalKey (lookupKey d seg) (opsAt seg ((seg :: t, v) :: os'))
            rw [ih _ seg, applySegs_lookup_self, opsAt_cons_self]
            rfl
          · show lookupKey (run os' (applyTomlEditOverrideSegments d (seg :: t) v)) k
                = evalKey (lookupKey d k) (opsAt k ((seg :: t, v) :: os'))
            rw [ih _ k, applySegs_lookup_ne d seg t v k (fun hc => hk hc.symm),
              opsAt_cons_ne k seg t v os' hk]

theorem run_keysMem_mono (os : List (List String × Item)) :
    ∀ d k, keysMem k d = true → keysMem k (run os d) = true := by
  induction os with
  | nil => intro d k h; exact h
  | cons ov os' ih =>
      intro d k h
      obtain ⟨p, v⟩ := ov
      exact ih _ k (keysMem_applySegs_mono d p v k h)

theorem run_head_keysMem (os : List (List String × Item)) :
    ∀ d p v h t, (p, v) ∈ os → p = h :: t → keysMem h (run os d) = true := by
  induction os with
  | nil => intro d p v h t hmem _; cases hmem
  | cons ov os' ih =>
      intro d p v h t hmem heq
      obtain ⟨p0, v0⟩ := ov
      rcases List.mem_cons.mp hmem with heq0 | hmem'
      · injection heq0 with h1 h2
        subst h1
        subst heq
        show keysMem h (run os' (applyTomlEditOverrideSegments d (h :: t) v0)) = true
        exact run_keysMem_mono os' _ h (keysMem_applySegs_self d h t v0)
      · exact ih _ p v h t hmem' heq

theorem keys_run_stable (os : List (List String × Item)) :
    ∀ d, (∀ p v h t, (p, v) ∈ os → p = h :: t → keysMem h d = true) →
      keysOf (run os d) = keysOf d := by
  induction os with
  | nil => intro d _; rfl
  | cons ov os' ih =>
      intro d hin
      obtain ⟨p0, v0⟩ := ov
      cases p0 with
      | nil =>
          show keysOf (run os' (applyTomlEditOverrideSegments d [] v0)) = keysOf d
          exact ih d (fun p v h t hm he => hin p v h t (List.mem_cons_of_mem _ hm) he)
      | cons h0 t0 =>
          have hmem0 : keysMem h0 d = true :=
            hin (h0 :: t0) v0 h0 t0 (List.mem_cons_self _ _) rfl
          show keysOf (run os' (applyTomlEditOverrideSegments d (h0 :: t0) v0)) = keysOf d
          rw [ih _ (fun p v h t hm he =>
            keysMem_applySegs_mono d (h0 :: t0) v0 h
              (hin p v h t (List.mem_cons_of_mem _ hm) he))]
          rw [keysOf_applySegs, hmem0]
          simp

theorem lookup_wfItem (d : EntryList) (k : String) (it : Item)
    (hwf : wfEntries d = true) (hl : lookupKey d k = Option.some it) :
    wfItem it = true := by
  induction d using entryInduction with
  | nil => cases hl
  | cons k' i tl ih =>
      simp only [wfEntries, Bool.and_eq_true] at hwf
      by_cases h : k' = k
      · simp only [lookupKey, if_pos h] at hl
        injection hl with h2
        subst h2
        exact hwf.1.2
      · simp only [lookupKey, if_neg h] at hl
        exact ih hwf.2 hl

theorem wf_setKey (d : EntryList) (k : String) (v : Item)
    (hwf : wfEntries d = true) (hv : wfItem v = true) :
    wfEntries (setKey d k v) = true := by
  induction d using entryInduction with
  | nil => simp [setKey, wfEntries, keysMem, hv]
  | cons k' i tl ih =>
      simp only [wfEntries, Bool.and_eq_true] at hwf
      by_cases h : k' = k
      · simp only [setKey, if_pos h]
        simp only [wfEntries, Bool.and_eq_true]
        refine ⟨⟨?_, hv⟩, hwf.2⟩
        have hk := hwf.1.1
        rw [h] at hk
        exact hk
      · simp only [setKey, if_neg h]
        simp only [wfEntries, Bool.and_eq_true]
        refine ⟨⟨?_, hwf.1.2⟩, ih hwf.2⟩
        rw [keysMem_setKey_ne tl k k' v h]
        exact hwf.1.1

theorem lookup_of_getKey_some (d : EntryList) (k : String) (it : Item)
    (h : getKey d k = Option.some it) : lookupKey d k = Option.some it := by
  unfold getKey at h
  cases hl : lookupKey d k with
  | none => rw [hl] at h; simp at h
  | some j =>
      cases j with
      | none => rw [hl] at h; simp at h
      | value w => rw [hl] at h; exact h
      | table imp sub => rw [hl] at h; exact h

theorem wf_applySegs (p : List String) : ∀ (d : EntryList) (v : Item),
    wfEntries d = true → wfItem v = true →
    wfEntries (applyTomlEditOverrideSegments d p v) = true := by
  induction p with
  | nil => intro d v hwf _; exact hwf
  | cons seg t ih =>
      intro d v hwf hv
      cases t with
      | nil => exact wf_setKey d seg v hwf hv
      | cons x xs =>
          rw [applySegs_cons_cons]
          cases hg : getKey d seg with
          | none => exact wf_setKey d seg _ hwf (ih EntryList.nil v rfl hv)
          | some it =>
              cases it with
              | none => exact wf_setKey d seg _ hwf (ih EntryList.nil v rfl hv)
              | value w => exact wf_setKey d seg _ hwf (ih EntryList.nil v rfl hv)
              | table imp sub =>
                  have hsub : wfItem (Item.table imp sub) = true :=
                    lookup_wfItem d seg _ hwf (lookup_of_getKey_some d seg _ hg)
                  exact wf_setKey d seg _ hwf (ih sub v hsub hv)

theorem wf_run (os : List (List String × Item)) :
    ∀ d, wfEntries d = true → wfOps os = true → wfEntries (run os d) = true := by
  induction os with
  | nil => intro d h _; exact h
  | cons ov os' ih =>
      intro d h hops
      obtain ⟨p, v⟩ := ov
      simp only [wfOps, Bool.and_eq_true] at hops
      exact ih _ (wf_applySegs p d v h hops.1) hops.2

theorem evalKey_append (a b : List KOp) :
    ∀ i, evalKey i (a ++ b) = evalKey (evalKey i a) b := by
  induction a with
  | nil => intro i; rfl
  | cons op a' ih => intro i; exact ih _

theorem last_leaf_decomposition (ops : List KOp) :
    allDeep ops = true
    ∨ ∃ a v post, ops = a ++ KOp.leaf v :: post ∧ allDeep post = true := by
  induction ops with
  | nil => exact Or.inl rfl
  | cons op rest ih =>
      rcases ih with hall | ⟨a, v, post, heq, hpost⟩
      · cases op with
        | deep p v => exact Or.inl hall
        | leaf v => exact Or.inr ⟨[], v, rest, rfl, hall⟩
      · exact Or.inr ⟨op :: a, v, post, by rw [heq]; rfl, hpost⟩

theorem evalKey_allDeep (ops : List KOp) :
    ∀ i, allDeep ops = true → ops ≠ [] →
      evalKey i ops = Option.some (Item.table (promoteSlot i).1
        (run (deepOvs ops) (promoteSlot i).2)) := by
  induction ops with
  | nil => intro i _ h; exact absurd rfl h
  | cons op rest ih =>
      intro i hall _
      cases op with
      | leaf v => simp [allDeep] at hall
      | deep p v =>
          cases hrest : rest with
          | nil => subst hrest; rfl
          | cons op2 rest2 =>
              subst hrest
              show evalKey (Option.some (stepEval i (KOp.deep p v))) (op2 :: rest2)
                  = Option.some (Item.table (promoteSlot i).1
                      (run (deepOvs (KOp.deep p v :: op2 :: rest2)) (promoteSlot i).2))
              rw [ih _ hall (by simp)]
              rfl

theorem pathSum_deepOvs_opsAt (k : String) (os : List (List String × Item)) :
    pathSum (deepOvs (opsAt k os)) + (opsAt k os).length ≤ pathSum os := by
  induction os with
  | nil => simp [opsAt, deepOvs, pathSum]
  | cons ov os' ih =>
      obtain ⟨p, v⟩ := ov
      cases p with
      | nil =>
          show pathSum (deepOvs (opsAt k os')) + (opsAt k os').length
              ≤ List.length [] + pathSum os'
          simpa using ih
      | cons k' t =>
          by_cases hk : k' = k
          · rw [hk, opsAt_cons_self]
            cases t with
            | nil =>
                simp only [mkKOp, deepOvs, List.length_cons, pathSum, List.length]
                omega
            | cons x xs =>
                simp only [mkKOp, deepOvs, List.length_cons, pathSum, List.length]
                omega
          · rw [opsAt_cons_ne k k' t v os' hk]
            simp only [pathSum, List.length_cons]
            omega

theorem wfOps_deepOvs_opsAt (k : String) (os : List (List String × Item))
    (h : wfOps os = true) : wfOps (deepOvs (opsAt k os)) = true := by
  induction os with
  | nil => rfl
  | cons ov os' ih =>
      obtain ⟨p, v⟩ := ov
      simp only [wfOps, Bool.and_eq_true] at h
      cases p with
      | nil => exact ih h.2
      | cons k' t =>
          by_cases hk : k' = k
          · subst hk
            rw [opsAt_cons_self]
            cases t with
            | nil => exact ih h.2
            | cons x xs =>
                show wfOps ((x :: xs, v) :: deepOvs (opsAt k' os')) = true
                simp only [wfOps, Bool.and_eq_true]
                exact ⟨h.1, ih h.2⟩
          · rw [opsAt_cons_ne k k' t v os' hk]
            exact ih h.2

theorem entries_ext (a : EntryList) : ∀ (b : EntryList), wfEntries a = true →
    keysOf a = keysOf b → (∀ k, lookupKey a k = lookupKey b k) → a = b := by
  induction a using entryInduction with
  | nil =>
      intro b _ hkeys _
      cases b with
      | nil => rfl
      | cons k2 j tb => simp [keysOf] at hkeys
  | cons k i tl ih =>
      intro b hwf hkeys hlook
      cases b with
      | nil => simp [keysOf] at hkeys
      | cons k2 j tb =>
          simp only [keysOf, List.cons.injEq] at hkeys
          obtain ⟨hk, hkeys'⟩ := hkeys
          subst hk
          have hij : i = j := by
            have h1 := hlook k
            simp only [lookupKey, if_pos rfl] at h1
            injection h1
          subst hij
          simp only [wfEntries, Bool.and_eq_true] at hwf
          have hmtl : keysMem k tl = false := by
            have h3 := hwf.1.1
            simp only [Bool.not_eq_true'] at h3
            exact h3
          have hmtb : keysMem k tb = false := by
            cases hmb : keysMem k tb with
            | false => rfl
            | true =>
                have hmem : k ∈ keysOf tb := (keysMem_iff_mem_keysOf tb k).mp hmb
                rw [← hkeys'] at hmem
                have hcontra := (keysMem_iff_mem_keysOf tl k).mpr hmem
                rw [hmtl] at hcontra
                cases hcontra
          have htl : tl = tb := by
            apply ih tb hwf.2 hkeys'
            intro k'
            by_cases hk' : k' = k
            · subst hk'
              rw [lookup_eq_none_of_not_keysMem tl k' hmtl,
                lookup_eq_none_of_not_keysMem tb k' hmtb]
            · have h2 := hlook k'
              have hne2 : ¬(k = k') := fun hc => hk' (Eq.symm hc)
              simp only [lookupKey] at h2
              rw [if_neg hne2, if_neg hne2] at h2
              exact h2
          rw [htl]

theorem run_idem_aux : ∀ (n : Nat) (os : List (List String × Item)) (d : EntryList),
    pathSum os ≤ n → wfEntries d = true → wfOps os = true →
    run os (run os d) = run os d := by
  intro n
  induction n using Nat.strong_induction_on with
  | _ n IH =>
      intro os d hn hwf hops
      have hwfS : wfEntries (run os d) = true := wf_run os d hwf hops
      refine (entries_ext (run os d) (run os (run os d)) hwfS ?_ ?_).symm
      · exact (keys_run_stable os (run os d)
          (fun p v h t hm he => run_head_keysMem os d p v h t hm he)).symm
      · intro k
        rw [run_lookup os (run os d) k, run_lookup os d k]
        rcases last_leaf_decomposition (opsAt k os) with hall | ⟨a, v, post, heq, hpost⟩
        · cases hops0 : opsAt k os with
          | nil => rfl
          | cons op rest =>
              rw [← hops0]
              have hne : opsAt k os ≠ [] := by rw [hops0]; simp
              have hB : wfEntries (promoteSlot (lookupKey d k)).2 = true := by
                cases hl : lookupKey d k with
                | none => rfl
                | some it =>
                    cases it with
                    | none => rfl
                    | value w => rfl
                    | table imp sub => exact lookup_wfItem d k _ hwf hl
              have hlt : pathSum (deepOvs (opsAt k os)) < n := by
                have h24 := pathSum_deepOvs_opsAt k os
                have hlen : 0 < (opsAt k os).length := by rw [hops0]; simp
                omega
              rw [evalKey_allDeep _ _ hall hne]
              rw [evalKey_allDeep _ _ hall hne]
              show Option.some (Item.table (promoteSlot (lookupKey d k)).1
                  (run (deepOvs (opsAt k os)) (promoteSlot (lookupKey d k)).2))
                = Option.some (Item.table (promoteSlot (lookupKey d k)).1
                  (run (deepOvs (opsAt k os))
                    (run (deepOvs (opsAt k os)) (promoteSlot (lookupKey d k)).2)))
              rw [IH (pathSum (deepOvs (opsAt k os))) hlt (deepOvs (opsAt k os)) _
                le_rfl hB (wfOps_deepOvs_opsAt k os hops)]
        · rw [heq, evalKey_append, evalKey_append]
          rfl

/-- Replaying the very same adjusted override list on its own output is the
identity, for any document whose tables have duplicate-free keys. -/
theorem run_idem (os : List (List String × Item)) (d : EntryList)
    (hwf : wfEntries d = true) (hops : wfOps os = true) :
    run os (run os d) = run os d :=
  run_idem_aux (pathSum os) os d le_rfl hwf hops

theorem persistApplyLoop_eq_run (eff : Option String) :
    ∀ (ovs : List (List String × String)) (d : EntryList),
      persistApplyLoop eff ovs d = run (ovsPrefixed eff ovs) d := by
  intro ovs
  induction ovs with
  | nil => intro d; rfl
  | cons ov rest ih =>
      intro d
      obtain ⟨segs, val⟩ := ov
      show persistApplyLoop eff rest
          (applyTomlEditOverrideSegments d (prefixSegments eff segs) (tomlEditValueStr val))
        = run (ovsPrefixed eff ((segs, val) :: rest)) d
      rw [ih]
      rfl

theorem wfOps_ovsPrefixed (eff : Option String) (ovs : List (List String × String)) :
    wfOps (ovsPrefixed eff ovs) = true := by
  induction ovs with
  | nil => rfl
  | cons ov rest ih =>
      obtain ⟨segs, val⟩ := ov
      show wfOps ((prefixSegments eff segs, tomlEditValueStr val) :: ovsPrefixed eff rest)
          = true
      simp only [wfOps, Bool.and_eq_true]
      exact ⟨rfl, ih⟩

end IdempotenceLemmas

section Claims

/-- C1: if reading the config file fails with "not found", `persist_overrides`
proceeds from an empty document; if the read fails any other way, or the text
fails to parse, it returns an error before applying any override and the
destination file's bytes are exactly what they were before the call. -/
theorem persist_read_parse_failure_behavior (parse : String → Option EntryList)
    (prior : Option String) (profile : Option String)
    (ovs : List (List String × String)) (s : String) :
    persistOverrides parse ReadResult.notFound profile ovs
      = Except.ok (persistOverridesDoc EntryList.nil profile ovs)
    ∧ runPersistWithRead parse prior ReadResult.ioError profile ovs
      = (prior, Option.some PersistError.readError)
    ∧ (parse s = Option.none →
        runPersistWithRead parse prior (ReadResult.ok s) profile ovs
          = (prior, Option.some PersistError.parseError)) :=
  ⟨rfl, rfl, fun h => by simp [runPersistWithRead, persistOverrides, h]⟩

/-- Witness for C1 at the repo's own test input: an unparsable file makes the
persist attempt fail and leaves the bytes unchanged. -/
theorem persist_read_parse_failure_behavior_witness :
    runPersistWithRead (fun _ => Option.none) (Option.some "invalid = [unclosed")
        (ReadResult.ok "invalid = [unclosed") Option.none [(["x"], "y")]
      = (Option.some "invalid = [unclosed", Option.some PersistError.parseError) :=
  (persist_read_parse_failure_behavior (fun _ => Option.none)
    (Option.some "invalid = [unclosed") Option.none [(["x"], "y")]
    "invalid = [unclosed").2.2 rfl

/-- C2: the applier walks the segments in order; before the last segment a
missing child becomes a fresh empty implicit table and a non-table child is
replaced in place by one (its previous value discarded); the final segment is
an unconditional insert-or-overwrite; an empty segment list is a no-op. -/
theorem applier_walk_semantics (d : EntryList) (v : Item) (last seg s2 : String)
    (rest : List String) :
    applyTomlEditOverrideSegments d [] v = d
    ∧ applyTomlEditOverrideSegments d [last] v = setKey d last v
    ∧ applyTomlEditOverrideSegments d (seg :: s2 :: rest) v =
        (match getKey d seg with
         | Option.some (Item.table imp sub) =>
             setKey d seg (Item.table imp (applyTomlEditOverrideSegments sub (s2 :: rest) v))
         | _ => setKey d seg
             (Item.table true (applyTomlEditOverrideSegments EntryList.nil (s2 :: rest) v))) :=
  ⟨rfl, rfl, applySegs_cons_cons d seg s2 rest v⟩

/-- C3: an override's path is prefixed with `["profiles", name]` exactly when
the effective profile is `some name` and the first segment is not
`"profiles"`; otherwise the path is used as given; the persist loop applies
each override at that adjusted path. -/
theorem override_path_prefixing (eff : Option String) (segs : List String) :
    (∀ name, eff = Option.some name → segs.head? ≠ Option.some "profiles" →
        prefixSegments eff segs = "profiles" :: name :: segs)
    ∧ (segs.head? = Option.some "profiles" → prefixSegments eff segs = segs)
    ∧ (eff = Option.none → prefixSegments eff segs = segs)
    ∧ (∀ ov rest d, persistApplyLoop eff (ov :: rest) d =
        persistApplyLoop eff rest
          (applyTomlEditOverrideSegments d (prefixSegments eff ov.1) (tomlEditValueStr ov.2))) := by
  refine ⟨?_, ?_, ?_, ?_⟩
  · intro name h1 h2
    subst h1
    simp [prefixSegments, h2]
  · intro h
    cases eff with
    | none => rfl
    | some name => simp [prefixSegments, h]
  · intro h
    subst h
    rfl
  · intro ov rest d
    obtain ⟨a, b⟩ := ov
    rfl

/-- Witness for C3: prefixing happens for a plain path under a profile, and
not for a `profiles`-rooted path nor without a profile. -/
theorem override_path_prefixing_witness :
    prefixSegments (Option.some "o3") ["model"] = ["profiles", "o3", "model"]
    ∧ prefixSegments (Option.some "o3") ["profiles", "p1", "model"]
        = ["profiles", "p1", "model"]
    ∧ prefixSegments Option.none ["model"] = ["model"] :=
  ⟨(override_path_prefixing (Option.some "o3") ["model"]).1 "o3" rfl (by decide),
   (override_path_prefixing (Option.some "o3") ["profiles", "p1", "model"]).2.1 rfl,
   (override_path_prefixing Option.none ["model"]).2.2.1 rfl⟩

/-- C4: profile resolution returns an explicitly supplied argument verbatim
(even the empty string), else the string value of the top-level `profile`
key, else `none` (key absent or of the wrong type); it never fails. -/
theorem profile_resolution (root : EntryList) (p s : String) :
    effectiveProfile root (Option.some p) = Option.some p
    ∧ (getKey root "profile" = Option.some (Item.value (Value.str s)) →
        effectiveProfile root Option.none = Option.some s)
    ∧ (getKey root "profile" = Option.none →
        effectiveProfile root Option.none = Option.none)
    ∧ (∀ it, getKey root "profile" = Option.some it → Item.asStr it = Option.none →
        effectiveProfile root Option.none = Option.none) := by
  refine ⟨rfl, ?_, ?_, ?_⟩
  · intro h
    simp [effectiveProfile, h, Item.asStr]
  · intro h
    simp [effectiveProfile, h]
  · intro it h1 h2
    simp [effectiveProfile, h1, h2]

/-- Witness for C4: explicit empty-string profile accepted verbatim; a string
`profile` key found; absent key and non-string key give `none`. -/
theorem profile_resolution_witness :
    effectiveProfile EntryList.nil (Option.some "") = Option.some ""
    ∧ effectiveProfile (entriesOf [("profile", Item.value (Value.str "o3"))]) Option.none
        = Option.some "o3"
    ∧ effectiveProfile EntryList.nil Option.none = Option.none
    ∧ effectiveProfile (entriesOf [("profile", Item.value (Value.int 3))]) Option.none
        = Option.none :=
  ⟨(profile_resolution EntryList.nil "" "x").1,
   (profile_resolution (entriesOf [("profile", Item.value (Value.str "o3"))]) "x" "o3").2.1 rfl,
   (profile_resolution EntryList.nil "x" "x").2.2.1 rfl,
   (profile_resolution (entriesOf [("profile", Item.value (Value.int 3))]) "x" "x").2.2.2
     (Item.value (Value.int 3)) rfl rfl⟩

/-- C5: applying an override leaves every node off the traversed segment
path exactly as it was: a write at `pre ++ k' :: prest` preserves the node
at every path `pre ++ k :: qrest` that diverges from it (`k ≠ k'`, at any
depth, with arbitrary remainders on both sides) — in particular top-level
keys and other profile tables during a `["profiles", name, …]` write, and a
pre-existing sibling `model_reasoning_effort` when only `model` is written,
and vice versa, both at top level and inside a profile table. -/
theorem override_frame_preserves_siblings (d : EntryList) (v : Item)
    (pre qrest prest : List String) (k k' : String) (h : k ≠ k') :
    getPath (pre ++ k :: qrest)
        (applyTomlEditOverrideSegments d (pre ++ k' :: prest) v)
      = getPath (pre ++ k :: qrest) d :=
  getPath_applySegs_frame pre k k' qrest prest d v h

/-- Witness for C5: a profile-prefixed `model` write leaves the top-level
`profile` key and a different profile's `model` untouched; writing `model`
preserves a sibling `model_reasoning_effort` at top level, and writing
`model_reasoning_effort` preserves a sibling `model` inside a profile
table. -/
theorem override_frame_preserves_siblings_witness :
    getPath ["profile"]
        (applyTomlEditOverrideSegments
          (entriesOf [("profile", Item.value (Value.str "o3"))])
          ["profiles", "o3", "model"] (tomlEditValueStr "o3"))
      = Option.some (Item.value (Value.str "o3"))
    ∧ getPath ["profiles", "p2", "model"]
        (applyTomlEditOverrideSegments
          (entriesOf [("profiles", Item.table true
              (entriesOf [("p2", Item.table true
                (entriesOf [("model", Item.value (Value.str "m2"))]))]))])
          ["profiles", "p1", "model"] (tomlEditValueStr "gpt-5"))
      = Option.some (Item.value (Value.str "m2"))
    ∧ getPath ["model_reasoning_effort"]
        (applyTomlEditOverrideSegments
          (entriesOf [("model_reasoning_effort", Item.value (Value.str "minimal"))])
          ["model"] (tomlEditValueStr "o3"))
      = Option.some (Item.value (Value.str "minimal"))
    ∧ getPath ["profiles", "p1", "model"]
        (applyTomlEditOverrideSegments
          (entriesOf [("profiles", Item.table true
              (entriesOf [("p1", Item.table true
                (entriesOf [("model", Item.value (Value.str "gpt-5"))]))]))])
          ["profiles", "p1", "model_reasoning_effort"] (tomlEditValueStr "minimal"))
      = Option.some (Item.value (Value.str "gpt-5")) :=
  ⟨(override_frame_preserves_siblings
      (entriesOf [("profile", Item.value (Value.str "o3"))])
      (tomlEditValueStr "o3") [] [] ["o3", "model"] "profile" "profiles"
      (by decide)).trans rfl,
   (override_frame_preserves_siblings
      (entriesOf [("profiles", Item.table true
          (entriesOf [("p2", Item.table true
            (entriesOf [("model", Item.value (Value.str "m2"))]))]))])
      (tomlEditValueStr "gpt-5") ["profiles"] ["model"] ["model"] "p2" "p1"
      (by decide)).trans rfl,
   (override_frame_preserves_siblings
      (entriesOf [("model_reasoning_effort", Item.value (Value.str "minimal"))])
      (tomlEditValueStr "o3") [] [] [] "model_reasoning_effort" "model"
      (by decide)).trans rfl,
   (override_frame_preserves_siblings
      (entriesOf [("profiles", Item.table true
          (entriesOf [("p1", Item.table true
            (entriesOf [("model", Item.value (Value.str "gpt-5"))]))]))])
      (tomlEditValueStr "minimal") ["profiles", "p1"] [] [] "model"
      "model_reasoning_effort" (by decide)).trans rfl⟩

/-- C7: on a non-empty segment list the applier performs exactly one leaf
write at the full traversed path and neither early-return guard branch is
ever taken, so no requested override is silently dropped. -/
theorem applier_no_silent_drop (segs : List String) (d : EntryList) (v : Item)
    (h1 : segs ≠ []) (h2 : v ≠ Item.none) :
    (applySegsInstr d segs v).2 = false
    ∧ (applySegsInstr d segs v).1 = applyTomlEditOverrideSegments d segs v
    ∧ getPath segs (applyTomlEditOverrideSegments d segs v) = Option.some v :=
  ⟨(applySegsInstr_spec segs d v).1, (applySegsInstr_spec segs d v).2,
   getPath_applySegs_self segs d v h1 h2⟩

/-- Witness for C7 on a concrete two-segment write into an empty document. -/
theorem applier_no_silent_drop_witness :
    getPath ["a", "b"]
        (applyTomlEditOverrideSegments EntryList.nil ["a", "b"] (tomlEditValueStr "v"))
      = Option.some (tomlEditValueStr "v") :=
  (applier_no_silent_drop ["a", "b"] EntryList.nil (tomlEditValueStr "v") (by decide)
    (by simp [tomlEditValueStr])).2.2

/-- C8: each public setter is exactly one `persist_overrides` call with a
single override at `["model"]` or `["model_reasoning_effort"]`, the effort
serialized to its canonical lowercase form; the setters add no other logic. -/
theorem setters_delegate_to_persist (parse : String → Option EntryList) (fs : Option String)
    (p : Option String) (m : String) (e : ReasoningEffort) :
    setDefaultModelForProfile parse fs p m = runPersist parse fs p [(["model"], m)]
    ∧ setDefaultModel parse fs m = runPersist parse fs Option.none [(["model"], m)]
    ∧ setDefaultEffortForProfile parse fs p e
        = runPersist parse fs p
            [(["model_reasoning_effort"], ReasoningEffort.toCanonicalString e)]
    ∧ setDefaultEffort parse fs e
        = runPersist parse fs Option.none
            [(["model_reasoning_effort"], ReasoningEffort.toCanonicalString e)]
    ∧ ReasoningEffort.toCanonicalString ReasoningEffort.minimal = "minimal"
    ∧ ReasoningEffort.toCanonicalString ReasoningEffort.low = "low"
    ∧ ReasoningEffort.toCanonicalString ReasoningEffort.medium = "medium"
    ∧ ReasoningEffort.toCanonicalString ReasoningEffort.high = "high" :=
  ⟨rfl, rfl, rfl, rfl, rfl, rfl, rfl, rfl⟩

/-- C6: from a directory with no config file, setting model `"gpt-5"` and
then effort `high` yields a file whose entire text is exactly
`model = "gpt-5"\nmodel_reasoning_effort = "high"\n`, assuming the parser
round-trips the intermediate file the first call wrote. -/
theorem end_to_end_model_then_effort (parse : String → Option EntryList)
    (h : parse "model = \"gpt-5\"\n"
        = Option.some (entriesOf [("model", Item.value (Value.str "gpt-5"))])) :
    setDefaultModel parse Option.none "gpt-5"
      = (Option.some "model = \"gpt-5\"\n", Option.none)
    ∧ setDefaultEffort parse (Option.some "model = \"gpt-5\"\n") ReasoningEffort.high
      = (Option.some "model = \"gpt-5\"\nmodel_reasoning_effort = \"high\"\n",
          Option.none) := by
  constructor
  · rfl
  · simp only [setDefaultEffort, setDefaultEffortForProfile, runPersist, readFs,
      runPersistWithRead, persistOverrides, h]
    rfl

/-- Witness for C6 with a concrete parser that maps the intermediate text to
the document `toml_edit` builds from it. -/
theorem end_to_end_model_then_effort_witness :
    setDefaultModel parseModelGpt5 Option.none "gpt-5"
      = (Option.some "model = \"gpt-5\"\n", Option.none)
    ∧ setDefaultEffort parseModelGpt5 (Option.some "model = \"gpt-5\"\n")
        ReasoningEffort.high
      = (Option.some "model = \"gpt-5\"\nmodel_reasoning_effort = \"high\"\n",
          Option.none) :=
  end_to_end_model_then_effort parseModelGpt5 rfl

/-- C10: an explicit empty-string profile argument routes a `model` write to
the path `["profiles", "", "model"]` — under the profile table named by the
empty string, not at top level, and not as an error. -/
theorem empty_profile_name_targets_profile_table (d : EntryList) (m : String) :
    persistOverridesDoc d (Option.some "") [(["model"], m)]
      = applyTomlEditOverrideSegments d ["profiles", "", "model"] (tomlEditValueStr m)
    ∧ getPath ["profiles", "", "model"]
        (persistOverridesDoc d (Option.some "") [(["model"], m)])
      = Option.some (tomlEditValueStr m)
    ∧ getKey (persistOverridesDoc d (Option.some "") [(["model"], m)]) "model"
      = getKey d "model" := by
  have h1 : persistOverridesDoc d (Option.some "") [(["model"], m)]
      = applyTomlEditOverrideSegments d ["profiles", "", "model"] (tomlEditValueStr m) := rfl
  refine ⟨h1, ?_, ?_⟩
  · rw [h1]
    exact getPath_applySegs_self ["profiles", "", "model"] d (tomlEditValueStr m)
      (by decide) (by simp [tomlEditValueStr])
  · rw [h1]
    exact getKey_applySegs_ne d "profiles" ["", "model"] (tomlEditValueStr m) "model"
      (by decide)

/-- C9 counterexample: persisting is not idempotent as claimed.  With no
explicit profile and the single override `(["profile"], "x")` against an
empty (present) file, the first call succeeds and writes
`profile = "x"\n`; the identical second call also succeeds, but resolves the
effective profile to `"x"` from the file the first call wrote and therefore
writes under `[profiles.x]`, changing the text.  The parse function maps the
two concrete texts exactly as `toml_edit` parses them. -/
theorem persist_idempotence_counterexample :
    runPersistWithRead parseIdemCex (Option.some "") (ReadResult.ok "") Option.none
        [(["profile"], "x")]
      = (Option.some "profile = \"x\"\n", Option.none)
    ∧ runPersistWithRead parseIdemCex (Option.some "profile = \"x\"\n")
        (ReadResult.ok "profile = \"x\"\n") Option.none [(["profile"], "x")]
      = (Option.some "profile = \"x\"\n\n[profiles.x]\nprofile = \"x\"\n", Option.none)
    ∧ "profile = \"x\"\n\n[profiles.x]\nprofile = \"x\"\n" ≠ "profile = \"x\"\n" :=
  ⟨rfl, rfl, by decide⟩

/-- C9 (amended): persisting is idempotent provided the second call resolves
the same effective profile as the first — which holds in particular whenever
an explicit profile argument is supplied, or when no override writes the
top-level `profile` key.  For every starting text that parses to a
duplicate-key-free document, if the first call succeeds, the effective
profile of the resulting document is unchanged, and the parser round-trips
the written file, then the identical second call succeeds and leaves the
file text exactly as the first call left it. -/
theorem persist_idempotent_same_profile (parse : String → Option EntryList)
    (s : String) (doc : EntryList) (profile : Option String)
    (ovs : List (List String × String))
    (hparse : parse s = Option.some doc) (hwf : wfEntries doc = true)
    (heff : effectiveProfile (persistOverridesDoc doc profile ovs) profile
        = effectiveProfile doc profile)
    (hrt : parse (serializeDoc (persistOverridesDoc doc profile ovs))
        = Option.some (persistOverridesDoc doc profile ovs)) :
    runPersistWithRead parse (Option.some s) (ReadResult.ok s) profile ovs
      = (Option.some (serializeDoc (persistOverridesDoc doc profile ovs)), Option.none)
    ∧ runPersistWithRead parse
        (Option.some (serializeDoc (persistOverridesDoc doc profile ovs)))
        (ReadResult.ok (serializeDoc (persistOverridesDoc doc profile ovs))) profile ovs
      = (Option.some (serializeDoc (persistOverridesDoc doc profile ovs)), Option.none) := by
  have key : persistOverridesDoc (persistOverridesDoc doc profile ovs) profile ovs
      = persistOverridesDoc doc profile ovs := by
    show persistApplyLoop
        (effectiveProfile (persistOverridesDoc doc profile ovs) profile) ovs
        (persistOverridesDoc doc profile ovs)
      = persistOverridesDoc doc profile ovs
    rw [heff]
    show persistApplyLoop (effectiveProfile doc profile) ovs
        (persistApplyLoop (effectiveProfile doc profile) ovs doc)
      = persistApplyLoop (effectiveProfile doc profile) ovs doc
    rw [persistApplyLoop_eq_run, persistApplyLoop_eq_run]
    exact run_idem (ovsPrefixed (effectiveProfile doc profile) ovs) doc hwf
      (wfOps_ovsPrefixed (effectiveProfile doc profile) ovs)
  constructor
  · simp only [runPersistWithRead, persistOverrides, hparse]
  · simp only [runPersistWithRead, persistOverrides, hrt, key]

/-- Witness for C9 (amended) with an explicit profile argument: both calls
write `[profiles.p]\nmodel = "gpt-5"\n` and the second changes nothing. -/
theorem persist_idempotent_same_profile_witness :
    runPersistWithRead parseIdemWit (Option.some "") (ReadResult.ok "")
        (Option.some "p") [(["model"], "gpt-5")]
      = (Option.some "[profiles.p]\nmodel = \"gpt-5\"\n", Option.none)
    ∧ runPersistWithRead parseIdemWit (Option.some "[profiles.p]\nmodel = \"gpt-5\"\n")
        (ReadResult.ok "[profiles.p]\nmodel = \"gpt-5\"\n")
        (Option.some "p") [(["model"], "gpt-5")]
      = (Option.some "[profiles.p]\nmodel = \"gpt-5\"\n", Option.none) :=
  persist_idempotent_same_profile parseIdemWit "" EntryList.nil (Option.some "p")
    [(["model"], "gpt-5")] rfl rfl rfl rfl

end Claims

end ConfigEdit
